import Mathlib

/-
Verification of the Velox SIMD JSON path-extraction engine
(src/velox/functions/prestosql/json/SIMDJsonExtractor.h) as a shallow
embedding.  Pure definitions mirror the C++ source; external collaborators
(the simdjson on-demand parser) and repository code whose implementation
file is not present under src/ (JsonPathTokenizer, extractObject,
extractArray, SIMDJsonExtractor::parse, SIMDJsonExtractor::getInstance)
are modelled from the specification, as marked in each doc comment.
-/

namespace Velox

/-- A parsed JSON value, the shallow embedding of what the simdjson
on-demand parser exposes as `simdjson::ondemand::value`: an object,
an array, or a scalar (null, boolean, number, or string). -/
inductive Json where
  | null : Json
  | bool (b : Bool) : Json
  | num (n : Int) : Json
  | str (s : String) : Json
  | arr (elems : List Json) : Json
  | obj (fields : List (String × Json)) : Json

/-- A JSON value is a scalar when it is neither an object nor an array. -/
def Json.isScalar : Json → Bool
  | .arr _ => false
  | .obj _ => false
  | _ => true

/-- Modelled from the spec: `extractObject` (declared at
SIMDJsonExtractor.h:82-85, implementation not in src/) — "Look up the key
in the object. If absent, stop this branch silently": it returns the value
of the first member whose key equals the token text, and nothing when the
key is absent. -/
def extractObject (fields : List (String × Json)) (key : String) : Option Json :=
  (fields.find? (fun f => f.1 == key)).map (fun f => f.2)

/-- Reads a token consisting solely of decimal digits as a non-negative
integer; any other shape (empty, sign, non-digit) is rejected. -/
def digitsToNat (cs : List Char) : Option Nat :=
  if cs.isEmpty || !cs.all Char.isDigit then
    none
  else
    some (cs.foldl (fun acc c => acc * 10 + (c.toNat - '0'.toNat)) 0)

/-- Modelled from the spec: `extractArray` (declared at
SIMDJsonExtractor.h:87-90, implementation not in src/) — "Index(n): select
the n-th element (0-based); if out of range, stop this branch silently":
it interprets the token text as a non-negative integer index and returns
the element there, and nothing when the text is not numeric or the index
is out of range. -/
def extractArray (elems : List Json) (index : String) : Option Json :=
  match digitsToNat index.data with
  | some n => elems[n]?
  | none => none

/-- The traversal engine `SIMDJsonExtractor::extract`
(SIMDJsonExtractor.h:92-134), embedded with the extractor's `tokens_`
vector passed as the list of tokens still to be consumed and the consumer
reified as the returned list of the values it is invoked with, in
invocation order.  The C++ loop over `tokenIndex` is rendered as
recursion on the remaining token suffix (a call that in the source starts
at `tokenStartIndex` here receives `tokens_.drop tokenStartIndex`): an
iteration that sets `result` continues on the token suffix; one that
leaves `result` empty returns with no consumer invocation; exhausting the
token list invokes the consumer once on the current input.  The source's
last-token test `tokenIndex == tokens_.size() - 1` becomes emptiness of
the remaining suffix, and the wildcard fan-out returns directly after
visiting every array element in array order. -/
def extract (tokens : List String) (input : Json) : List Json :=
  match tokens, input with
  | [], v => [v]
  | token :: rest, .obj fields =>
    match extractObject fields token with
    | some v => extract rest v
    | none => []
  | token :: rest, .arr elems =>
    if token = "*" then
      if rest.isEmpty then
        elems
      else
        elems.flatMap (fun child => extract rest child)
    else
      match extractArray elems token with
      | some v => extract rest v
      | none => []
  | _ :: _, _ => []

/-- Characters permitted in a bare field name per the path grammar:
anything that is not a separator or a bracket. -/
def fieldChar (c : Char) : Bool :=
  !(c == '.' || c == '[' || c == ']')

/-- Tokenizer state: between segments, inside a `.name` segment (with the
name characters seen so far, reversed), or inside a `[k]` segment (with
the bracket content seen so far, reversed). -/
inductive TokMode where
  | top : TokMode
  | field (acc : List Char) : TokMode
  | bracket (acc : List Char) : TokMode

/-- Modelled from the spec: the path tokenizer body
(`SIMDJsonExtractor::tokenize` / JsonPathTokenizer, implementation not in
src/) on everything after the leading root character, as a one-pass
state machine.  Segments are `.name` (non-empty run of non-separator,
non-bracket characters) or `[k]` with `k` a non-negative integer literal
or the literal `*`; consecutive separators, an empty field name, an
unterminated bracket, and non-numeric non-star bracket content are
malformed and yield no token list.  Tokens are stored as their literal
text in an untyped string list, matching the `tokens_` member at
SIMDJsonExtractor.h:73. -/
def tokLoop : List Char → TokMode → Option (List String)
  | [], .top => some []
  | [], .field acc => if acc.isEmpty then none else some [String.mk acc.reverse]
  | [], .bracket _ => none
  | c :: rest, .top =>
    if c = '.' then tokLoop rest (.field [])
    else if c = '[' then tokLoop rest (.bracket [])
    else none
  | c :: rest, .field acc =>
    if c = '.' then
      if acc.isEmpty then none
      else (tokLoop rest (.field [])).map (fun ts => String.mk acc.reverse :: ts)
    else if c = '[' then
      if acc.isEmpty then none
      else (tokLoop rest (.bracket [])).map (fun ts => String.mk acc.reverse :: ts)
    else if c = ']' then none
    else tokLoop rest (.field (c :: acc))
  | c :: rest, .bracket acc =>
    if c = ']' then
      let content := acc.reverse
      if content = ['*'] || (!content.isEmpty && content.all Char.isDigit) then
        (tokLoop rest .top).map (fun ts => String.mk content :: ts)
      else none
    else tokLoop rest (.bracket (c :: acc))

/-- Modelled from the spec: `tokenize` — the path must begin with the root
character `$`, and the trivial path `$` tokenizes to the empty token
list, the sentinel behind `isRootOnlyPath` (SIMDJsonExtractor.h:49-51). -/
def tokenize (path : String) : Option (List String) :=
  match path.data with
  | '$' :: rest => tokLoop rest .top
  | _ => none

/-- The errors `simdJsonExtract` can surface to its caller other than
through its boolean result: an invalid JSON path raises a VeloxUserError
carrying the offending path text (SIMDJsonExtractor.h:62-66) which is
deliberately not caught (SIMDJsonExtractor.h:161-165). -/
inductive VeloxError where
  | invalidPath (path : String)

/-- Modelled from the spec and the comment at SIMDJsonExtractor.h:170-173:
converting a parsed document to a `simdjson::ondemand::value` via
`document::get_value()` succeeds for objects and arrays but is "not
supported if the object is a scalar", where it raises a
`simdjson_error`. -/
def get_value (doc : Json) : Option Json :=
  match doc with
  | .arr elems => some (.arr elems)
  | .obj fields => some (.obj fields)
  | _ => none

/-- The top-level entry point `simdJsonExtract`
(SIMDJsonExtractor.h:156-185).  The external parse step (`parse`, whose
implementation is not in src/) is embedded by taking the already-parsed
document as `Option Json`: `none` stands for malformed document bytes, on
which `parse` raises a `simdjson_error`, caught at
SIMDJsonExtractor.h:179.  The result carries the boolean return value
together with the list of values the consumer was invoked with, in order;
a compile failure of the path propagates as `VeloxError.invalidPath`
rather than being folded into the boolean. -/
def simdJsonExtract (doc : Option Json) (path : String) :
    Except VeloxError (Bool × List Json) :=
  match tokenize path with
  | none => .error (.invalidPath path)
  | some tokens =>
    match doc with
    | none => .ok (false, [])
    | some d =>
      if tokens.isEmpty then
        .ok (true, [d])
      else
        match get_value d with
        | none => .ok (false, [])
        | some v => .ok (true, extract tokens v)

/-- A compiled path: the original path string (the cache key) together
with its token list, the embedding of a cached `SIMDJsonExtractor`
instance (its `tokens_` member), immutable once constructed. -/
structure PathExpression where
  path : String
  tokens : List String

/-- Max number of extractors cached in the extractor cache
(SIMDJsonExtractor.h:71). -/
def kMaxCacheSize : Nat := 32

/-- Modelled from the spec: `SIMDJsonExtractor::getInstance` (declared at
SIMDJsonExtractor.h:59, implementation not in src/) — the bounded
compiled-path cache, kept in most-recently-used-first order.  A hit
returns the cached expression unchanged (no re-tokenization) and moves it
to the front; a miss tokenizes the path (propagating tokenizer failure as
`none`), inserts the new expression at the front, and keeps at most
`kMaxCacheSize - 1` old entries, evicting from the least recently used
end. -/
def getOrCompile (cache : List PathExpression) (path : String) :
    Option (PathExpression × List PathExpression) :=
  match cache.find? (fun e => e.path == path) with
  | some e => some (e, e :: cache.filter (fun e2 => e2.path != path))
  | none =>
    match tokenize path with
    | none => none
    | some ts => some (⟨path, ts⟩, ⟨path, ts⟩ :: cache.take (kMaxCacheSize - 1))

/-- Folds the wildcard fan-out over array elements left to right,
propagating recursion-budget exhaustion from any element. -/
def fanout (g : Json → Option (List Json)) : List Json → Option (List Json)
  | [] => some []
  | c :: cs =>
    match g c, fanout g cs with
    | some r, some rs => some (r ++ rs)
    | _, _ => none

/-- The traversal engine again, this time as the literal indexed rendering
of `SIMDJsonExtractor::extract` (SIMDJsonExtractor.h:92-134): the token
position is the explicit `tokenIndex` of the source, and `fuel` is an
explicit recursion-depth budget, spent one unit per call; `none` means
the budget was exhausted before the traversal finished.  Every recursive
call of the source — continuing the loop after a successful object or
array step, and the wildcard fan-out — starts at `tokenIndex + 1`, one
past its caller's position. -/
def extractFuel : Nat → List String → Json → Nat → Option (List Json)
  | 0, _, _, _ => none
  | fuel + 1, tokens, input, tokenIndex =>
    if h : tokenIndex < tokens.length then
      let token := tokens[tokenIndex]
      match input with
      | .obj fields =>
        match extractObject fields token with
        | some v => extractFuel fuel tokens v (tokenIndex + 1)
        | none => some []
      | .arr elems =>
        if token = "*" then
          if tokenIndex = tokens.length - 1 then
            some elems
          else
            fanout (fun child => extractFuel fuel tokens child (tokenIndex + 1)) elems
        else
          match extractArray elems token with
          | some v => extractFuel fuel tokens v (tokenIndex + 1)
          | none => some []
      | _ => some []
    else
      some [input]

/-
Helper lemmas, shared by the claim theorems below.
-/

/-- Converting a parsed document to a value fails exactly on scalar
documents. -/
theorem get_value_eq_none_iff (d : Json) : get_value d = none ↔ d.isScalar = true := by
  cases d <;> simp [get_value, Json.isScalar]

/-- Converting a non-scalar parsed document to a value returns it
unchanged. -/
theorem get_value_eq_some_self (d : Json) (h : d.isScalar = false) :
    get_value d = some d := by
  cases d <;> simp_all [get_value, Json.isScalar]

/-- The traversal of a scalar node with at least one token left invokes
the consumer on nothing. -/
theorem extract_scalar_eq_nil (j : Json) (token : String) (rest : List String)
    (h : j.isScalar = true) : extract (token :: rest) j = [] := by
  cases j <;> simp_all [Json.isScalar] <;> rfl

/-- Filtering with a predicate that some member fails strictly shrinks a
list. -/
theorem length_filter_lt_of_mem {α : Type} {p : α → Bool} {x : α} {l : List α}
    (hx : x ∈ l) (hpx : p x = false) : (l.filter p).length < l.length := by
  induction l with
  | nil => cases hx
  | cons a t ih =>
    rcases List.mem_cons.mp hx with h | h
    · subst h
      rw [List.filter_cons, hpx]
      exact Nat.lt_succ_of_le (List.length_filter_le p t)
    · by_cases hpa : p a
      · rw [List.filter_cons, hpa]
        simpa using Nat.succ_lt_succ (ih h)
      · rw [List.filter_cons]
        simp only [Bool.not_eq_true] at hpa
        rw [hpa]
        exact Nat.lt_succ_of_lt (ih h)

/-- The wildcard fan-out with a budgeted traversal that succeeds on every
element collects exactly the concatenation of the per-element results. -/
theorem fanout_eq_flatMap (g : Json → Option (List Json)) (f : Json → List Json)
    (elems : List Json) (hg : ∀ c ∈ elems, g c = some (f c)) :
    fanout g elems = some (elems.flatMap f) := by
  induction elems with
  | nil => rfl
  | cons c cs ih =>
    have hc := hg c (List.mem_cons_self c cs)
    have hcs : ∀ x ∈ cs, g x = some (f x) := fun x hx => hg x (List.mem_cons_of_mem c hx)
    simp [fanout, hc, ih hcs, List.flatMap_cons]

/-- A successful cache access returns an expression whose key is the
requested path, placed at the front of the updated cache. -/
theorem getOrCompile_shape (cache : List PathExpression) (path : String)
    (e : PathExpression) (cache2 : List PathExpression)
    (h : getOrCompile cache path = some (e, cache2)) :
    e.path = path ∧ ∃ tl, cache2 = e :: tl := by
  unfold getOrCompile at h
  cases hf : cache.find? (fun x => x.path == path) with
  | some e2 =>
    rw [hf] at h
    injection h with h
    injection h with h1 h2
    subst h1
    subst h2
    refine ⟨?_, _, rfl⟩
    have := List.find?_some hf
    exact beq_iff_eq.mp this
  | none =>
    rw [hf] at h
    cases ht : tokenize path with
    | none => rw [ht] at h; cases h
    | some ts =>
      rw [ht] at h
      injection h with h
      injection h with h1 h2
      subst h1
      subst h2
      exact ⟨rfl, _, rfl⟩

/-
Claim theorems.
-/

/-- C1: a wildcard token at an array node fans out over every element in
array order: when the wildcard is the last token every element is handed
to the consumer directly; otherwise each element is traversed
recursively from the next token as an independent branch, and the branch
ends right after the fan-out with no further sibling-token processing.
In particular extracting the single-wildcard path over the three-element
array delivers exactly 1, 2, 3 in order. -/
theorem wildcard_fanout_semantics :
    (∀ (rest : List String) (elems : List Json),
      rest = [] →
      extract ("*" :: rest) (.arr elems) = elems) ∧
    (∀ (rest : List String) (elems : List Json),
      rest ≠ [] →
      extract ("*" :: rest) (.arr elems)
        = elems.flatMap (fun child => extract rest child)) ∧
    simdJsonExtract (some (.obj [("a", .arr [.num 1, .num 2, .num 3])])) "$.a[*]"
      = .ok (true, [.num 1, .num 2, .num 3]) := by
  refine ⟨?_, ?_, rfl⟩
  · intro rest elems h
    subst h
    rfl
  · intro rest elems h
    cases rest with
    | nil => exact absurd rfl h
    | cons t ts => rfl

/-- Witness for C1 at concrete inputs: a last-token wildcard over
`[1, 2, 3]` consumes the three elements in order, and a non-last
wildcard recurses into each element. -/
theorem wildcard_fanout_semantics_witness :
    extract ["*"] (.arr [.num 1, .num 2, .num 3]) = [.num 1, .num 2, .num 3] ∧
    extract ["*", "x"] (.arr [.obj [("x", .num 5)]])
      = ([.obj [("x", .num 5)]] : List Json).flatMap
          (fun child => extract ["x"] child) := by
  constructor
  · exact wildcard_fanout_semantics.1 [] [.num 1, .num 2, .num 3] rfl
  · exact wildcard_fanout_semantics.2.1 ["x"] [.obj [("x", .num 5)]] (by simp)

/-- C3: the trivial path tokenizes to the empty token list, and on every
valid document extraction with it invokes the consumer exactly once with
the whole document and returns success. -/
theorem root_only_path_whole_document :
    tokenize "$" = some [] ∧
    ∀ (d : Json), simdJsonExtract (some d) "$" = .ok (true, [d]) :=
  ⟨rfl, fun _ => rfl⟩

/-- C4: at an object node whose current token names an absent key the
branch stops silently with no consumer invocation, and extracting a
missing field from a valid document still returns success with zero
consumer invocations. -/
theorem missing_key_stops_silently :
    (∀ (fields : List (String × Json)) (token : String) (rest : List String),
      extractObject fields token = none →
      extract (token :: rest) (.obj fields) = []) ∧
    simdJsonExtract (some (.obj [("a", .num 1)])) "$.missing" = .ok (true, []) := by
  refine ⟨?_, rfl⟩
  intro fields token rest h
  simp [extract, h]

/-- Witness for C4 at a concrete object: looking up the absent key
`missing` in the object with single key `a` invokes the consumer on
nothing. -/
theorem missing_key_stops_silently_witness :
    extract ["missing"] (.obj [("a", .num 1)]) = [] :=
  missing_key_stops_silently.1 [("a", .num 1)] "missing" [] rfl

/-- C5 counterexample: over the valid scalar document `5` with the
non-trivial path `$.a`, extraction returns `false`, not the success the
claim states, because converting a scalar document to a value fails. -/
theorem scalar_root_success_counterexample :
    simdJsonExtract (some (.num 5)) "$.a" = .ok (false, []) ∧
    (Except.ok ((false : Bool), ([] : List Json)) : Except VeloxError (Bool × List Json))
      ≠ .ok (true, []) := by
  refine ⟨rfl, ?_⟩
  intro h
  injection h with h
  injection h with h1 h2
  cases h1

/-- C5 amended: whenever traversal reaches a scalar node while tokens
remain, that branch stops silently with no consumer invocation, and when
the document root is an object or array the extraction call still
returns success; however when the document root itself is a scalar and
the path is non-trivial, the document-to-value conversion fails and the
extraction call returns failure (`false`) with zero consumer
invocations, not success. -/
theorem scalar_stops_branch_amended :
    (∀ (j : Json) (token : String) (rest : List String),
      j.isScalar = true →
      extract (token :: rest) j = []) ∧
    (∀ (d : Json) (path : String) (t : String) (ts : List String),
      d.isScalar = false →
      tokenize path = some (t :: ts) →
      simdJsonExtract (some d) path = .ok (true, extract (t :: ts) d)) ∧
    (∀ (j : Json) (path : String) (t : String) (ts : List String),
      j.isScalar = true →
      tokenize path = some (t :: ts) →
      simdJsonExtract (some j) path = .ok (false, [])) := by
  refine ⟨extract_scalar_eq_nil, ?_, ?_⟩
  · intro d path t ts hs htok
    have hv := get_value_eq_some_self d hs
    simp [simdJsonExtract, htok, hv]
  · intro j path t ts hs htok
    have hv : get_value j = none := (get_value_eq_none_iff j).mpr hs
    simp [simdJsonExtract, htok, hv]

/-- Witness for C5 (amended) at concrete inputs: a scalar reached with a
token left yields no consumer invocation, a document whose traversal
dead-ends on a scalar still reports success with zero invocations, and a
scalar root with the non-trivial path `$.a` yields `false` with zero
invocations. -/
theorem scalar_stops_branch_amended_witness :
    extract ["a"] (.str "s") = [] ∧
    simdJsonExtract (some (.obj [("a", .num 1)])) "$.a.b"
      = .ok (true, extract ["a", "b"] (.obj [("a", .num 1)])) ∧
    simdJsonExtract (some (.num 5)) "$.a" = .ok (false, []) :=
  ⟨scalar_stops_branch_amended.1 (.str "s") "a" [] rfl,
   scalar_stops_branch_amended.2.1 (.obj [("a", .num 1)]) "$.a.b" "a" ["b"] rfl rfl,
   scalar_stops_branch_amended.2.2 (.num 5) "$.a" "a" [] rfl rfl⟩

/-- C6: malformed document bytes (on which the external parse step
raises) make extraction return `false` with zero consumer invocations,
for every path that compiles. -/
theorem malformed_document_returns_false :
    ∀ (path : String) (tokens : List String),
      tokenize path = some tokens →
      simdJsonExtract none path = .ok (false, []) := by
  intro path tokens htok
  simp [simdJsonExtract, htok]

/-- Witness for C6 at the concrete path `$.a`. -/
theorem malformed_document_returns_false_witness :
    simdJsonExtract none "$.a" = .ok (false, []) :=
  malformed_document_returns_false "$.a" ["a"] rfl

/-- C7: a path that fails to tokenize makes extraction raise the
invalid-path error carrying the offending path text, never a boolean
result; `$[` (unterminated bracket) and `$.` (empty field name) are such
paths. -/
theorem invalid_path_raised_synchronously :
    (∀ (doc : Option Json) (path : String),
      tokenize path = none →
      simdJsonExtract doc path = .error (.invalidPath path)) ∧
    tokenize "$[" = none ∧
    tokenize "$." = none := by
  refine ⟨?_, rfl, rfl⟩
  intro doc path htok
  simp [simdJsonExtract, htok]

/-- Witness for C7 at the concrete malformed path `$[`. -/
theorem invalid_path_raised_synchronously_witness :
    simdJsonExtract (some .null) "$[" = .error (.invalidPath "$[") :=
  invalid_path_raised_synchronously.1 (some .null) "$[" rfl

/-- C9: tokens are untyped strings, so at an object node the literal
token text is looked up as a field key whatever its shape: the paths
`$[0]` and `$[*]` tokenize to the bare strings `0` and `*`, and applied
to objects they select the members whose keys are literally `0` and `*`
instead of being rejected as a token-kind mismatch. -/
theorem untyped_tokens_object_lookup :
    tokenize "$[0]" = some ["0"] ∧
    tokenize "$[*]" = some ["*"] ∧
    simdJsonExtract (some (.obj [("0", .num 7)])) "$[0]" = .ok (true, [.num 7]) ∧
    simdJsonExtract (some (.obj [("*", .num 8)])) "$[*]" = .ok (true, [.num 8]) :=
  ⟨rfl, rfl, rfl, rfl⟩

/-- C2: for every document and every path that compiles, the entry point
returns a boolean: `true` exactly when the document parsed and the
traversal could run to completion (the path is root-only, or the parsed
root converts to a value, i.e. is not a scalar), `false` when parsing or
that conversion fails — and the boolean is characterized without any
reference to the list of matches, so the match count never influences
it. -/
theorem extract_bool_independent_of_matches :
    ∀ (doc : Option Json) (path : String) (tokens : List String),
      tokenize path = some tokens →
      ∃ (b : Bool) (ms : List Json),
        simdJsonExtract doc path = .ok (b, ms) ∧
        (b = true ↔ ∃ d, doc = some d ∧ (tokens = [] ∨ d.isScalar = false)) := by
  intro doc path tokens htok
  cases doc with
  | none =>
    refine ⟨false, [], ?_, ?_⟩
    · simp [simdJsonExtract, htok]
    · simp
  | some d =>
    by_cases hroot : tokens.isEmpty
    · refine ⟨true, [d], ?_, ?_⟩
      · simp [simdJsonExtract, htok, hroot]
      · simp only [true_iff]
        exact ⟨d, rfl, Or.inl (List.isEmpty_iff.mp hroot)⟩
    · cases hv : get_value d with
      | none =>
        refine ⟨false, [], ?_, ?_⟩
        · simp [simdJsonExtract, htok, hroot, hv]
        · refine iff_of_false (by simp) ?_
          rintro ⟨d2, hd2, hcase⟩
          injection hd2 with hd2
          subst hd2
          rcases hcase with hnil | hsc
          · subst hnil
            simp at hroot
          · rw [(get_value_eq_none_iff d).mp hv] at hsc
            cases hsc
      | some v =>
        refine ⟨true, extract tokens v, ?_, ?_⟩
        · simp [simdJsonExtract, htok, hroot, hv]
        · simp only [true_iff]
          refine ⟨d, rfl, Or.inr ?_⟩
          cases hsc : d.isScalar
          · rfl
          · rw [(get_value_eq_none_iff d).mpr hsc] at hv
            cases hv

/-- Witness for C2 at a concrete document and path: over the object
document with `$.missing` the result is `true` with zero matches. -/
theorem extract_bool_independent_of_matches_witness :
    ∃ (b : Bool) (ms : List Json),
      simdJsonExtract (some (.obj [("a", .num 1)])) "$.missing" = .ok (b, ms) ∧
      (b = true ↔ ∃ d, (some (Json.obj [("a", .num 1)]) : Option Json) = some d ∧
        ((["missing"] : List String) = [] ∨ d.isScalar = false)) :=
  extract_bool_independent_of_matches (some (.obj [("a", .num 1)])) "$.missing"
    ["missing"] rfl

/-- C8: the compiled-path cache stays within its `kMaxCacheSize` (32)
bound across any successful access, and a second access with an
identical path string returns the very expression the first access
returned, shared from the cache rather than re-tokenized. -/
theorem cache_bounded_and_shared :
    (∀ (cache : List PathExpression) (path : String) (e : PathExpression)
        (cache2 : List PathExpression),
      getOrCompile cache path = some (e, cache2) →
      cache.length ≤ kMaxCacheSize →
      cache2.length ≤ kMaxCacheSize) ∧
    (∀ (cache : List PathExpression) (path : String) (e : PathExpression)
        (cache2 : List PathExpression),
      getOrCompile cache path = some (e, cache2) →
      ∃ tl, getOrCompile cache2 path = some (e, e :: tl)) := by
  constructor
  · intro cache path e cache2 h hbound
    unfold getOrCompile at h
    cases hf : cache.find? (fun x => x.path == path) with
    | some e2 =>
      rw [hf] at h
      injection h with h
      injection h with h1 h2
      subst h2
      have hmem := List.mem_of_find?_eq_some hf
      have hpe0 := List.find?_some hf
      have hpe : (e2.path == path) = true := hpe0
      have hfail : (e2.path != path) = false := by
        simp only [bne, hpe, Bool.not_true]
      have := length_filter_lt_of_mem (p := fun x => x.path != path) hmem hfail
      simp only [List.length_cons]
      omega
    | none =>
      rw [hf] at h
      cases ht : tokenize path with
      | none => rw [ht] at h; cases h
      | some ts =>
        rw [ht] at h
        injection h with h
        injection h with h1 h2
        subst h2
        simp only [List.length_cons, List.length_take, kMaxCacheSize]
        omega
  · intro cache path e cache2 h
    obtain ⟨hpath, tl, htl⟩ := getOrCompile_shape cache path e cache2 h
    subst htl
    refine ⟨(e :: tl).filter (fun e2 => e2.path != path), ?_⟩
    have hpe : (e.path == path) = true := beq_iff_eq.mpr hpath
    simp only [getOrCompile, List.find?_cons, hpe]

/-- Witness for C8 at a concrete run: inserting `$.a` into the empty
cache respects the bound, and a repeated access returns the same shared
expression. -/
theorem cache_bounded_and_shared_witness :
    ([⟨"$.a", ["a"]⟩] : List PathExpression).length ≤ kMaxCacheSize ∧
    ∃ tl, getOrCompile [⟨"$.a", ["a"]⟩] "$.a"
      = some (⟨"$.a", ["a"]⟩, (⟨"$.a", ["a"]⟩ : PathExpression) :: tl) :=
  ⟨cache_bounded_and_shared.1 [] "$.a" ⟨"$.a", ["a"]⟩ [⟨"$.a", ["a"]⟩] rfl (by simp [kMaxCacheSize]),
   cache_bounded_and_shared.2 [] "$.a" ⟨"$.a", ["a"]⟩ [⟨"$.a", ["a"]⟩] rfl⟩

/-- C10: the traversal terminates on every finite document and compiled
path: the literal indexed rendering of `extract`, run with any
recursion-depth budget exceeding the number of tokens not yet consumed,
never exhausts the budget and computes exactly the total traversal
function — every recursive call starts one token past its caller, so
recursion depth is bounded by the path's token count, and each loop
ranges over the finite token list or a finite array. -/
theorem extract_terminates_depth_bounded :
    ∀ (fuel : Nat) (tokens : List String) (input : Json) (tokenIndex : Nat),
      tokens.length - tokenIndex < fuel →
      extractFuel fuel tokens input tokenIndex
        = some (extract (tokens.drop tokenIndex) input) := by
  intro fuel
  induction fuel with
  | zero =>
    intro tokens input i h
    exact absurd h (Nat.not_lt_zero _)
  | succ fuel ih =>
    intro tokens input i h
    by_cases hi : i < tokens.length
    · rw [List.drop_eq_getElem_cons hi]
      simp only [extractFuel]
      rw [dif_pos hi]
      have hdroplen := List.length_drop (i + 1) tokens
      generalize hrest : tokens.drop (i + 1) = rest at hdroplen ⊢
      generalize tokens[i] = t
      cases input with
      | obj fields =>
        cases heq : extractObject fields t with
        | some v =>
          simp only [extract, heq]
          rw [← hrest]
          exact ih tokens v (i + 1) (by omega)
        | none => simp only [extract, heq]
      | arr elems =>
        by_cases hstar : t = "*"
        · subst hstar
          by_cases hlast : i = tokens.length - 1
          · have hnil : rest = [] := by
              cases hrn : rest with
              | nil => rfl
              | cons a l =>
                rw [hrn] at hdroplen
                simp at hdroplen
                omega
            subst hnil
            simp [extract, hlast]
          · have hne : rest.isEmpty = false := by
              cases hrn : rest with
              | nil =>
                rw [hrn] at hdroplen
                simp at hdroplen
                omega
              | cons a l => rfl
            simp only [extract, hlast, if_false, hne, eq_self_iff_true, if_true,
              Bool.false_eq_true, ite_false]
            refine fanout_eq_flatMap _ _ elems ?_
            intro c hc
            rw [← hrest]
            exact ih tokens c (i + 1) (by omega)
        · cases heq : extractArray elems t with
          | some v =>
            simp only [extract, heq, if_neg hstar]
            rw [← hrest]
            exact ih tokens v (i + 1) (by omega)
          | none => simp only [extract, heq, if_neg hstar]
      | null => simp only [extract]
      | bool b => simp only [extract]
      | num n => simp only [extract]
      | str s => simp only [extract]
    · rw [List.drop_eq_nil_of_le (by omega)]
      simp only [extractFuel]
      rw [dif_neg hi]
      rfl

/-- Witness for C10 at a concrete run: budget 3 suffices for the
two-token path over a nested document and reproduces the total
traversal. -/
theorem extract_terminates_depth_bounded_witness :
    extractFuel 3 ["a", "*"] (.obj [("a", .arr [.num 1, .num 2])]) 0
      = some (extract (List.drop 0 ["a", "*"]) (.obj [("a", .arr [.num 1, .num 2])])) :=
  extract_terminates_depth_bounded 3 ["a", "*"]
    (.obj [("a", .arr [.num 1, .num 2])]) 0 (by decide)

end Velox
